import Mathlib

/-!
Verification of the depth-aware node cache (`ParseDataCache` backed by `LRUCache`)
of the Figma-Context-MCP repository.

The TypeScript sources are embedded shallowly:

* `SimplifiedNode` becomes the mutually inductive family `SNode` / `Children` /
  `Forest`.  The TS field `children?: SimplifiedNode[]` is an optional list;
  `Children.none` models the field being absent and `Children.some f` models a
  present (possibly empty) list.  A mutual family is used instead of
  `Option (List SNode)` so that every function is structurally recursive and
  computable by the kernel.
* The `LRUCache` class (a `Map` plus a doubly linked recency list) becomes
  `LRUCache`: `entries` is the `Map` in its iteration (insertion) order, and
  `recency` is the linked list from head (most recently used) to last
  (the eviction victim).
* `ParseDataCache` methods become pure state-passing functions over
  `LRUCache CacheItem`.  The asynchronous `getFileMeta` callback is modelled by
  a `FetchOutcome` value (the outcome of the one remote call an operation can
  make), and each operation additionally returns the `Bool` "was the remote
  metadata fetch invoked".  `Logger` calls are pure logging and are dropped.
-/

/-! ## Node trees (`SimplifiedNode`) -/

mutual
/-- `SimplifiedNode`: id, name, type and an optional children list. -/
inductive SNode : Type where
  | mk (id : String) (name : String) (nodeType : String) (children : Children) : SNode
  deriving DecidableEq

/-- The optional `children` field: absent, or a present forest. -/
inductive Children : Type where
  | none : Children
  | some (f : Forest) : Children
  deriving DecidableEq

/-- A list of child nodes (`SimplifiedNode[]`). -/
inductive Forest : Type where
  | nil : Forest
  | cons (hd : SNode) (tl : Forest) : Forest
  deriving DecidableEq
end

namespace SNode

def id : SNode → String
  | .mk i _ _ _ => i

def name : SNode → String
  | .mk _ n _ _ => n

def nodeType : SNode → String
  | .mk _ _ t _ => t

def children : SNode → Children
  | .mk _ _ _ c => c

end SNode

mutual
/-- `getNodeDepth` (parse-data-cache.ts): 0 if no children are present or the
children list is empty, else `1 + Math.max(...childDepths)`. -/
def getNodeDepth : SNode → Nat
  | .mk _ _ _ c => childrenDepth c

def childrenDepth : Children → Nat
  | .none => 0
  | .some f => forestDepthAux f

/-- `1 + max` over a children list, written one level at a time; on the empty
list it is 0, matching the `children.length === 0` early return. -/
def forestDepthAux : Forest → Nat
  | .nil => 0
  | .cons c cs => max (1 + getNodeDepth c) (forestDepthAux cs)
end

/-- `Math.max(...cacheData.nodes.map(getNodeDepth))` over a nonempty root list
(the call site only evaluates it when a node was found, hence the list is
nonempty and the `-Infinity` empty case never arises). -/
def forestMaxDepth : Forest → Nat
  | .nil => 0
  | .cons c cs => max (getNodeDepth c) (forestMaxDepth cs)

/-- `findNodeInTree` (parse-data-cache.ts): depth-first search for an id;
recurses into `node.children` whenever the field is present. -/
def findNodeInTree : Forest → String → Option SNode
  | .nil, _ => Option.none
  | .cons (SNode.mk i nm ty ch) rest, targetId =>
    if i = targetId then Option.some (SNode.mk i nm ty ch)
    else
      match ch with
      | .some cs =>
        match findNodeInTree cs targetId with
        | Option.some found => Option.some found
        | Option.none => findNodeInTree rest targetId
      | .none => findNodeInTree rest targetId

/-- `getNodeDepthFromRoot` (parse-data-cache.ts): number of levels from the
forest root down to the node with the given id, `-1` when absent. -/
def getNodeDepthFromRoot : Forest → String → Int → Int
  | .nil, _, _ => -1
  | .cons (SNode.mk i _ _ ch) rest, targetId, currentDepth =>
    if i = targetId then currentDepth
    else
      match ch with
      | .some cs =>
        let found := getNodeDepthFromRoot cs targetId (currentDepth + 1)
        if found ≠ -1 then found else getNodeDepthFromRoot rest targetId currentDepth
      | .none => getNodeDepthFromRoot rest targetId currentDepth

mutual
/-- `limitNodeDepth` (parse-data-cache.ts): for `maxDepth <= 0` drop the
children field entirely; for a node without (or with empty) children return
the node itself; otherwise rebuild the node with every child limited to
`maxDepth - 1`. -/
def limitNodeDepth : SNode → Int → SNode
  | .mk i nm ty ch, maxDepth =>
    if maxDepth ≤ 0 then .mk i nm ty .none
    else
      match ch with
      | .none => .mk i nm ty .none
      | .some .nil => .mk i nm ty (.some .nil)
      | .some (.cons c cs) =>
        .mk i nm ty (.some (.cons (limitNodeDepth c (maxDepth - 1)) (limitForest cs (maxDepth - 1))))

def limitForest : Forest → Int → Forest
  | .nil, _ => .nil
  | .cons c cs, maxDepth => .cons (limitNodeDepth c maxDepth) (limitForest cs maxDepth)
end

/-! ## Cache key parsing -/

/-- JS `String.prototype.startsWith`, on the character lists. -/
def strStartsWith (s pre : String) : Bool :=
  pre.data.isPrefixOf s.data

/-- `cacheKey.split(':')` on character lists. -/
def splitOnColon : List Char → List (List Char)
  | [] => [[]]
  | c :: rest =>
    let r := splitOnColon rest
    if c = ':' then [] :: r
    else
      match r with
      | [] => [[c]]
      | g :: gs => (c :: g) :: gs

/-- The numeric value of the leading decimal-digit run, `none` when there is
no leading digit (`parseInt` returning `NaN`). -/
def digitRunVal (cs : List Char) : Option Nat :=
  let ds := cs.takeWhile Char.isDigit
  if ds.isEmpty then Option.none
  else Option.some (ds.foldl (fun acc c => acc * 10 + (c.toNat - '0'.toNat)) 0)

/-- JS `parseInt(s, 10)`: skip leading whitespace, optional sign, then the
longest digit run; `NaN` (here `none`) when no digit follows. -/
def jsParseInt10 (s : String) : Option Int :=
  let cs := s.data.dropWhile (fun ch => ch = ' ' ∨ ch = '\t' ∨ ch = '\n' ∨ ch = '\r')
  match cs with
  | '-' :: rest => (digitRunVal rest).map (fun v => -(v : Int))
  | '+' :: rest => (digitRunVal rest).map (fun v => (v : Int))
  | _ => (digitRunVal cs).map (fun v => (v : Int))

/-- `getCacheKeyDepthLimit` (parse-data-cache.ts): parse the last `:`-separated
segment of a cache key as an integer; `none` for `"default"` or any other
non-numeric tail. -/
def getCacheKeyDepthLimit (cacheKey : String) : Option Int :=
  let parts := splitOnColon cacheKey.data
  let lastPart := parts.getLastD []
  jsParseInt10 ⟨lastPart⟩

/-! ## Designs and cache items -/

/-- `SimplifiedDesign`: root forest plus shared file metadata.  The component /
component-set / global-variable tables are opaque to the cache and modelled as
strings. -/
structure SimplifiedDesign where
  name : String
  lastModified : String
  thumbnailUrl : String
  nodes : Forest
  components : String
  componentSets : String
  globalVars : String
  deriving DecidableEq

/-- `CacheItem`: a design snapshot plus the freshness marker captured at write
time (`lastTouchedAt`, possibly empty). -/
structure CacheItem where
  data : SimplifiedDesign
  lastTouchedAt : String
  deriving DecidableEq

/-! ## The LRU store (lru.ts) -/

/-- The `LRUCache` class state.  `entries` is the backing `Map` in its
iteration (= insertion) order, as observed by `forEach`; `recency` lists the
keys of the doubly linked list from head (most recently used) to last (the
tail, i.e. the eviction victim). -/
structure LRUCache (V : Type) where
  capacity : Nat
  entries : List (String × V)
  recency : List String
  deriving DecidableEq

/-- `new LRUCache(capacity)`. -/
def lruInit (V : Type) (capacity : Nat) : LRUCache V :=
  { capacity := capacity, entries := [], recency := [] }

/-- `LRUCache.get`: on a hit return the value and move the key to the front of
the recency list; on a miss return nothing and leave the state untouched. -/
def lruGet {V : Type} (s : LRUCache V) (k : String) : Option V × LRUCache V :=
  match s.entries.find? (fun kv => kv.1 == k) with
  | Option.none => (Option.none, s)
  | Option.some kv => (Option.some kv.2, { s with recency := k :: s.recency.erase k })

/-- `LRUCache.put`: update-in-place and refresh recency for an existing key;
otherwise evict the recency tail when at capacity, then insert the new entry
(appended to the `Map`, consed onto the recency list). -/
def lruPut {V : Type} (s : LRUCache V) (k : String) (v : V) : LRUCache V :=
  if s.entries.any (fun kv => kv.1 == k) then
    { s with
        entries := s.entries.map (fun kv => if kv.1 == k then (k, v) else kv),
        recency := k :: s.recency.erase k }
  else
    let s1 :=
      if s.capacity ≤ s.entries.length then
        match s.recency.getLast? with
        | Option.some victim =>
          { s with
              entries := s.entries.filter (fun kv => kv.1 != victim),
              recency := s.recency.dropLast }
        | Option.none => s
      else s
    { s1 with entries := s1.entries ++ [(k, v)], recency := k :: s1.recency }

/-- `LRUCache.delete`: remove the key from the map and the recency list;
report whether anything was removed. -/
def lruDelete {V : Type} (s : LRUCache V) (k : String) : Bool × LRUCache V :=
  match s.entries.find? (fun kv => kv.1 == k) with
  | Option.none => (false, s)
  | Option.some _ =>
    (true,
      { s with
          entries := s.entries.filter (fun kv => kv.1 != k),
          recency := s.recency.filter (fun j => j != k) })

/-- `LRUCache.clear`. -/
def lruClear {V : Type} (s : LRUCache V) : LRUCache V :=
  { s with entries := [], recency := [] }

/-- `LRUCache.has`: membership only, no recency effect. -/
def lruHas {V : Type} (s : LRUCache V) (k : String) : Bool :=
  s.entries.any (fun kv => kv.1 == k)

/-- One client operation against the store. -/
inductive LRUOp (V : Type) where
  | get (k : String)
  | put (k : String) (v : V)
  | del (k : String)
  | clear

def applyOp {V : Type} (s : LRUCache V) : LRUOp V → LRUCache V
  | .get k => (lruGet s k).2
  | .put k v => lruPut s k v
  | .del k => (lruDelete s k).2
  | .clear => lruClear s

def runOps {V : Type} (s : LRUCache V) (ops : List (LRUOp V)) : LRUCache V :=
  ops.foldl applyOp s

/-! ## Freshness validation (parse-data-cache.ts, `validateCacheItem`) -/

/-- The outcome of the one `getFileMeta()` call an operation can make:
either the promise rejects, or it resolves with a metadata object whose
`last_touched_at` field may be absent (or any string, possibly empty). -/
inductive FetchOutcome where
  | failure
  | success (last_touched_at : Option String)
  deriving DecidableEq

/-- `validateCacheItem`: an empty stored marker is unconditionally fresh; a
failed fetch is treated as fresh; on success the item is stale exactly when
the current marker is truthy and differs from the stored one. -/
def validateCacheItem (cacheItem : CacheItem) (fetch : FetchOutcome) : Bool :=
  if cacheItem.lastTouchedAt = "" then true
  else
    match fetch with
    | .failure => true
    | .success cur =>
      match cur with
      | Option.some c => if c ≠ "" ∧ c ≠ cacheItem.lastTouchedAt then false else true
      | Option.none => true

/-- Whether `validateCacheItem` reaches the `await getFileMeta()` call: it does
so exactly when the stored marker is nonempty. -/
def validationInvokesFetch (cacheItem : CacheItem) : Bool :=
  cacheItem.lastTouchedAt ≠ ""

/-! ## ParseDataCache -/

/-- `checkNodeDepthSatisfiesRequirement`: no requirement is always satisfied;
otherwise the target node must be found and either the overall realized depth
of the snapshot's roots or the target's own subtree depth must reach the
requirement. -/
def checkNodeDepthSatisfiesRequirement (cacheData : SimplifiedDesign)
    (targetNodeId : String) (requiredDepth : Option Int) : Bool :=
  match requiredDepth with
  | Option.none => true
  | Option.some d =>
    match findNodeInTree cacheData.nodes targetNodeId with
    | Option.none => false
    | Option.some targetNode =>
      let overallCacheDepth := forestMaxDepth cacheData.nodes
      let targetNodeDepth := getNodeDepth targetNode
      decide ((overallCacheDepth : Int) ≥ d) || decide ((targetNodeDepth : Int) ≥ d)

/-- The body of the `forEach` scan in `findNodeInCache`, for one cache entry:
what this entry contributes (`none` both for a non-matching key and for an
ineligible or node-less entry). -/
def findNodeInCacheEntry (fileKey nodeId : String) (requiredDepth : Option Int)
    (cacheKey : String) (cacheItem : CacheItem) : Option (SNode × CacheItem) :=
  if strStartsWith cacheKey (fileKey ++ ":") then
    let cacheDepthLimit := getCacheKeyDepthLimit cacheKey
    -- Guard for a full-data request against a depth-limited snapshot.
    let completenessGuard : Bool :=
      match requiredDepth, cacheDepthLimit with
      | Option.none, Option.some limit =>
        match findNodeInTree cacheItem.data.nodes nodeId with
        | Option.some targetNode =>
          let nodeDepthFromRoot := getNodeDepthFromRoot cacheItem.data.nodes nodeId 0
          let nodeSubtreeDepth := getNodeDepth targetNode
          let totalDepthNeeded := nodeDepthFromRoot + (nodeSubtreeDepth : Int)
          decide (totalDepthNeeded < limit)
        | Option.none => false
      | _, _ => true
    if completenessGuard then
      if checkNodeDepthSatisfiesRequirement cacheItem.data nodeId requiredDepth then
        match findNodeInTree cacheItem.data.nodes nodeId with
        | Option.some node =>
          let finalNode :=
            match requiredDepth with
            | Option.some d => if d ≥ 0 then limitNodeDepth node d else node
            | Option.none => node
          Option.some (finalNode, cacheItem)
        | Option.none => Option.none
      else Option.none
    else Option.none
  else Option.none

/-- `findNodeInCache`: scan all entries in `forEach` (map-iteration) order and
keep the first entry that produces a result (`if (result) return`). -/
def findNodeInCache (c : LRUCache CacheItem) (fileKey nodeId : String)
    (requiredDepth : Option Int) : Option (SNode × CacheItem) :=
  c.entries.findSome? (fun kv => findNodeInCacheEntry fileKey nodeId requiredDepth kv.1 kv.2)

/-- `clearFileCache`: collect every key starting with `fileKey + ":"`, then
delete them one by one. -/
def clearFileCache (c : LRUCache CacheItem) (fileKey : String) : LRUCache CacheItem :=
  let keysToDelete :=
    (c.entries.filter (fun kv => strStartsWith kv.1 (fileKey ++ ":"))).map Prod.fst
  keysToDelete.foldl (fun s k => (lruDelete s k).2) c

/-- `ParseDataCache.get`: exact-key lookup (which refreshes recency on a hit),
then optional freshness validation; a stale entry is deleted.  The final
`Bool` reports whether the remote metadata fetch was invoked. -/
def cacheGet (c : LRUCache CacheItem) (cacheKey : String)
    (validationParams : Option FetchOutcome) :
    Option SimplifiedDesign × LRUCache CacheItem × Bool :=
  match lruGet c cacheKey with
  | (Option.none, c1) => (Option.none, c1, false)
  | (Option.some cacheItem, c1) =>
    match validationParams with
    | Option.none => (Option.some cacheItem.data, c1, false)
    | Option.some fetch =>
      if validateCacheItem cacheItem fetch then
        (Option.some cacheItem.data, c1, validationInvokesFetch cacheItem)
      else
        (Option.none, (lruDelete c1 cacheKey).2, validationInvokesFetch cacheItem)

/-- `findNodeData`: scan for an eligible entry; on a hit optionally validate
freshness, clearing the whole file's entries when stale.  The final `Bool`
reports whether the remote metadata fetch was invoked. -/
def findNodeData (c : LRUCache CacheItem) (fileKey nodeId : String)
    (validationParams : Option FetchOutcome) (requiredDepth : Option Int) :
    Option SNode × LRUCache CacheItem × Bool :=
  match findNodeInCache c fileKey nodeId requiredDepth with
  | Option.none => (Option.none, c, false)
  | Option.some (node, cacheItem) =>
    match validationParams with
    | Option.none => (Option.some node, c, false)
    | Option.some fetch =>
      if validateCacheItem cacheItem fetch then
        (Option.some node, c, validationInvokesFetch cacheItem)
      else
        (Option.none, clearFileCache c fileKey, validationInvokesFetch cacheItem)

/-- The `forEach` rescan in `findMultipleNodes` that records a source design:
every matching entry assigns `sourceDesign`, so the last matching entry (in
map-iteration order) wins. -/
def scanSourceDesign (c : LRUCache CacheItem) (fileKey nodeId : String)
    (sourceDesign : Option SimplifiedDesign) : Option SimplifiedDesign :=
  c.entries.foldl
    (fun acc kv =>
      if strStartsWith kv.1 (fileKey ++ ":") ∧ (findNodeInTree kv.2.data.nodes nodeId).isSome
      then Option.some kv.2.data else acc)
    sourceDesign

/-- The `for (const nodeId of nodeIds)` loop of `findMultipleNodes`, threading
the cache state and the `sourceDesign` accumulator. -/
def findMultipleNodesGo (fileKey : String) (validationParams : Option FetchOutcome)
    (requiredDepth : Option Int) :
    LRUCache CacheItem → List String → Option SimplifiedDesign →
    List SNode × List String × Option SimplifiedDesign × LRUCache CacheItem
  | c, [], sourceDesign => ([], [], sourceDesign, c)
  | c, nodeId :: rest, sourceDesign =>
    let r := findNodeData c fileKey nodeId validationParams requiredDepth
    match r.1 with
    | Option.some cachedNode =>
      let sourceDesign1 :=
        if sourceDesign.isSome then sourceDesign
        else scanSourceDesign r.2.1 fileKey nodeId sourceDesign
      let rec1 := findMultipleNodesGo fileKey validationParams requiredDepth r.2.1 rest sourceDesign1
      (cachedNode :: rec1.1, rec1.2.1, rec1.2.2)
    | Option.none =>
      let rec1 := findMultipleNodesGo fileKey validationParams requiredDepth r.2.1 rest sourceDesign
      (rec1.1, nodeId :: rec1.2.1, rec1.2.2)

/-- `findMultipleNodes`: per-id lookups accumulating hits and misses in input
order, plus one representative source design. -/
def findMultipleNodes (c : LRUCache CacheItem) (fileKey : String) (nodeIds : List String)
    (validationParams : Option FetchOutcome) (requiredDepth : Option Int) :
    List SNode × List String × Option SimplifiedDesign × LRUCache CacheItem :=
  findMultipleNodesGo fileKey validationParams requiredDepth c nodeIds Option.none

/-- `ParseDataCache.put`. -/
def cachePut (c : LRUCache CacheItem) (cacheKey : String) (data : SimplifiedDesign)
    (lastTouchedAt : String) : LRUCache CacheItem :=
  lruPut c cacheKey { data := data, lastTouchedAt := lastTouchedAt }

/-- `ParseDataCache.has`. -/
def cacheHas (c : LRUCache CacheItem) (cacheKey : String) : Bool :=
  lruHas c cacheKey

/-! ## Malformed trees: children lists with null/undefined slots

`findNodeInTree` is typed over `SimplifiedNode[]`, but the spec discusses its
behaviour on malformed input where a children list contains `null`/`undefined`
slots.  `RForest` adds such slots (`consNull`); running the search over it
models the JS evaluation, where reading `node.id` off a null slot throws a
`TypeError` (modelled as `Except.error ()`). -/

mutual
inductive RNode : Type where
  | mk (id : String) (name : String) (nodeType : String) (children : RChildren) : RNode
  deriving DecidableEq

inductive RChildren : Type where
  | none : RChildren
  | some (f : RForest) : RChildren
  deriving DecidableEq

inductive RForest : Type where
  | nil : RForest
  | consNull (tl : RForest) : RForest
  | cons (hd : RNode) (tl : RForest) : RForest
  deriving DecidableEq
end

/-- `findNodeInTree` evaluated over a forest that may contain null slots:
`for (const node of nodes) { if (node.id === targetId) ... }` reads `node.id`
on every slot, so a null slot throws before it could be skipped. -/
def findNodeInTreeR : RForest → String → Except Unit (Option RNode)
  | .nil, _ => .ok Option.none
  | .consNull _, _ => .error ()
  | .cons (RNode.mk i nm ty ch) rest, targetId =>
    if i = targetId then .ok (Option.some (RNode.mk i nm ty ch))
    else
      match ch with
      | .some cs =>
        match findNodeInTreeR cs targetId with
        | .error e => .error e
        | .ok (Option.some found) => .ok (Option.some found)
        | .ok Option.none => findNodeInTreeR rest targetId
      | .none => findNodeInTreeR rest targetId

mutual
/-- A well-formed node viewed as raw input (no null slots anywhere). -/
def toRaw : SNode → RNode
  | .mk i nm ty ch => .mk i nm ty (toRawChildren ch)

def toRawChildren : Children → RChildren
  | .none => .none
  | .some f => .some (toRawForest f)

def toRawForest : Forest → RForest
  | .nil => .nil
  | .cons n tl => .cons (toRaw n) (toRawForest tl)
end

/-! ## Aliasing of depth-limited copies

`limitNodeDepth` is re-run here with the object identity of its result made
explicit: `ATree.shared orig` records that the JS function returned the input
object `orig` itself (the `return node;` branch taken when the depth budget is
positive and the node has no or empty children), while `ATree.fresh` records a
newly allocated object (`{ ...node }` or the destructuring copy). -/

mutual
inductive ATree : Type where
  | shared (orig : SNode) : ATree
  | fresh (id : String) (name : String) (nodeType : String) (children : AChildren) : ATree
  deriving DecidableEq

inductive AChildren : Type where
  | none : AChildren
  | some (f : AForest) : AChildren
  deriving DecidableEq

inductive AForest : Type where
  | nil : AForest
  | cons (hd : ATree) (tl : AForest) : AForest
  deriving DecidableEq
end

mutual
/-- `limitNodeDepth` with result identity tracked. -/
def limitNodeDepthA : SNode → Int → ATree
  | .mk i nm ty ch, maxDepth =>
    if maxDepth ≤ 0 then .fresh i nm ty .none
    else
      match ch with
      | .none => .shared (.mk i nm ty .none)
      | .some .nil => .shared (.mk i nm ty (.some .nil))
      | .some (.cons c cs) =>
        .fresh i nm ty
          (.some (.cons (limitNodeDepthA c (maxDepth - 1)) (limitForestA cs (maxDepth - 1))))

def limitForestA : Forest → Int → AForest
  | .nil, _ => .nil
  | .cons c cs, maxDepth => .cons (limitNodeDepthA c maxDepth) (limitForestA cs maxDepth)
end

mutual
/-- Forget identities, recovering the plain value of the result. -/
def eraseA : ATree → SNode
  | .shared orig => orig
  | .fresh i nm ty ch => .mk i nm ty (eraseAChildren ch)

def eraseAChildren : AChildren → Children
  | .none => .none
  | .some f => .some (eraseAForest f)

def eraseAForest : AForest → Forest
  | .nil => .nil
  | .cons t tl => .cons (eraseA t) (eraseAForest tl)
end

mutual
/-- `true` when no node of the result is shared with the input: mutating any
node of such a result cannot affect the input tree. -/
def freshCopy : ATree → Bool
  | .shared _ => false
  | .fresh _ _ _ ch => freshCopyChildren ch

def freshCopyChildren : AChildren → Bool
  | .none => true
  | .some f => freshCopyForest f

def freshCopyForest : AForest → Bool
  | .nil => true
  | .cons t tl => freshCopy t && freshCopyForest tl
end

/-! ## Helper lemmas -/

mutual
theorem limitNodeDepth_depth_le : ∀ (n : SNode) (d : Int), 0 ≤ d →
    (getNodeDepth (limitNodeDepth n d) : Int) ≤ d
  | .mk i nm ty ch, d, h => by
    cases ch with
    | none =>
      simp only [limitNodeDepth, ite_self, getNodeDepth, childrenDepth]
      exact_mod_cast h
    | some f =>
      cases f with
      | nil =>
        by_cases hd : d ≤ 0 <;>
          simp only [limitNodeDepth, hd, if_true, if_false, ite_true, ite_false,
            getNodeDepth, childrenDepth, forestDepthAux] <;>
          exact_mod_cast h
      | cons c cs =>
        by_cases hd : d ≤ 0
        · simp only [limitNodeDepth, hd, ite_true, getNodeDepth, childrenDepth]
          exact_mod_cast h
        · have h1 := limitNodeDepth_depth_le c (d - 1) (by omega)
          have h2 := limitForest_forestDepthAux_le cs (d - 1) (by omega)
          simp only [limitNodeDepth, hd, ite_false, getNodeDepth, childrenDepth, forestDepthAux]
          rw [Nat.cast_max]
          apply max_le
          · push_cast
            omega
          · omega

theorem limitForest_forestDepthAux_le : ∀ (f : Forest) (d : Int), 0 ≤ d →
    (forestDepthAux (limitForest f d) : Int) ≤ d + 1
  | .nil, d, _ => by
    simp only [limitForest, forestDepthAux]
    omega
  | .cons c cs, d, h => by
    have h1 := limitNodeDepth_depth_le c d h
    have h2 := limitForest_forestDepthAux_le cs d h
    simp only [limitForest, forestDepthAux]
    rw [Nat.cast_max]
    apply max_le
    · push_cast
      omega
    · omega
end

theorem limitNodeDepth_shape (i nm ty : String) (ch : Children) (d : Int) :
    ∃ ch', limitNodeDepth (.mk i nm ty ch) d = .mk i nm ty ch' := by
  cases ch with
  | none => exact ⟨.none, by simp [limitNodeDepth]⟩
  | some f =>
    cases f with
    | nil =>
      by_cases hd : d ≤ 0
      · exact ⟨.none, by simp [limitNodeDepth, hd]⟩
      · exact ⟨.some .nil, by simp [limitNodeDepth, hd]⟩
    | cons c cs =>
      by_cases hd : d ≤ 0
      · exact ⟨.none, by simp [limitNodeDepth, hd]⟩
      · exact ⟨.some (.cons (limitNodeDepth c (d - 1)) (limitForest cs (d - 1))),
          by simp [limitNodeDepth, hd]⟩

theorem limitNodeDepth_children_none (n : SNode) (d : Int) (h : d ≤ 0) :
    (limitNodeDepth n d).children = Children.none := by
  obtain ⟨i, nm, ty, ch⟩ := n
  cases ch with
  | none => simp [limitNodeDepth, SNode.children]
  | some f =>
    cases f with
    | nil => simp [limitNodeDepth, h, SNode.children]
    | cons c cs => simp [limitNodeDepth, h, SNode.children]

mutual
theorem eraseA_limitNodeDepthA : ∀ (n : SNode) (d : Int),
    eraseA (limitNodeDepthA n d) = limitNodeDepth n d
  | .mk i nm ty ch, d => by
    cases ch with
    | none =>
      by_cases hd : d ≤ 0 <;> simp [limitNodeDepthA, limitNodeDepth, hd, eraseA, eraseAChildren]
    | some f =>
      cases f with
      | nil =>
        by_cases hd : d ≤ 0 <;> simp [limitNodeDepthA, limitNodeDepth, hd, eraseA, eraseAChildren]
      | cons c cs =>
        by_cases hd : d ≤ 0
        · simp [limitNodeDepthA, limitNodeDepth, hd, eraseA, eraseAChildren]
        · simp [limitNodeDepthA, limitNodeDepth, hd, eraseA, eraseAChildren, eraseAForest,
            eraseA_limitNodeDepthA c (d - 1), eraseAForest_limitForestA cs (d - 1)]

theorem eraseAForest_limitForestA : ∀ (f : Forest) (d : Int),
    eraseAForest (limitForestA f d) = limitForest f d
  | .nil, _ => by simp [limitForestA, limitForest, eraseAForest]
  | .cons c cs, d => by
    simp [limitForestA, limitForest, eraseAForest,
      eraseA_limitNodeDepthA c d, eraseAForest_limitForestA cs d]
end

/-- A trivial design used to build concrete witnesses. -/
def design0 : SimplifiedDesign :=
  { name := "", lastModified := "", thumbnailUrl := "", nodes := Forest.nil,
    components := "", componentSets := "", globalVars := "" }

/-! ## Claim C3 -/

/-- C3, counterexample: the claim quantifies over every integer `d`, but for
`d = -1` the depth-limited copy of a childless node has depth `0 > -1`, so
`limit(node, d)` does not always yield a tree of depth `≤ d`. -/
theorem c3_counterexample :
    ¬ ((getNodeDepth (limitNodeDepth (SNode.mk "a" "Leaf" "TEXT" Children.none) (-1)) : Int) ≤ -1) := by
  decide

/-- C3 (amended): for every node and every integer `d ≥ 0`,
`limit(node, d)` yields a tree whose maximum subtree depth is `≤ d`; for every
`d ≤ 0` the result has the children field entirely absent (never an empty
list); and the root's id, name and type are unchanged (each retained child is
in turn produced by the same operation one level deeper). -/
theorem c3_limit_depth_truncation (n : SNode) (d : Int) :
    (0 ≤ d → (getNodeDepth (limitNodeDepth n d) : Int) ≤ d)
    ∧ (d ≤ 0 → (limitNodeDepth n d).children = Children.none)
    ∧ (limitNodeDepth n d).id = n.id
    ∧ (limitNodeDepth n d).name = n.name
    ∧ (limitNodeDepth n d).nodeType = n.nodeType := by
  obtain ⟨i, nm, ty, ch⟩ := n
  obtain ⟨ch', hch⟩ := limitNodeDepth_shape i nm ty ch d
  exact ⟨fun h => limitNodeDepth_depth_le _ d h,
    fun h => limitNodeDepth_children_none _ d h,
    by simp [hch, SNode.id], by simp [hch, SNode.name], by simp [hch, SNode.nodeType]⟩

/-- C3, witness at a concrete node and depths 1 and -2. -/
theorem c3_witness :
    ((0 : Int) ≤ 1
      ∧ (getNodeDepth (limitNodeDepth (SNode.mk "a" "Leaf" "TEXT" Children.none) 1) : Int) ≤ 1)
    ∧ ((-2 : Int) ≤ 0
      ∧ (limitNodeDepth (SNode.mk "a" "Leaf" "TEXT" Children.none) (-2)).children = Children.none) :=
  ⟨⟨by decide, (c3_limit_depth_truncation (SNode.mk "a" "Leaf" "TEXT" Children.none) 1).1 (by decide)⟩,
   ⟨by decide, (c3_limit_depth_truncation (SNode.mk "a" "Leaf" "TEXT" Children.none) (-2)).2.1 (by decide)⟩⟩

/-! ## Claim C5 -/

/-- C5: freshness validation.  An empty stored marker is judged fresh without
reaching the remote metadata fetch; a failed fetch is judged fresh; a
successful fetch is fresh exactly when the current marker is absent, empty or
equal to the stored one (so two differing non-empty markers are stale). -/
theorem c5_freshness_validation (item : CacheItem) (fetch : FetchOutcome) :
    (item.lastTouchedAt = "" →
      validateCacheItem item fetch = true ∧ validationInvokesFetch item = false)
    ∧ validateCacheItem item FetchOutcome.failure = true
    ∧ (item.lastTouchedAt ≠ "" → ∀ cur : Option String,
        (validateCacheItem item (FetchOutcome.success cur) = true ↔
          (cur = Option.none ∨ cur = Option.some "" ∨ cur = Option.some item.lastTouchedAt))) := by
  unfold validateCacheItem validationInvokesFetch
  refine ⟨fun h => by simp [h], ?_, fun h cur => ?_⟩
  · by_cases h : item.lastTouchedAt = "" <;> simp [h]
  · rw [if_neg h]
    cases cur with
    | none => simp
    | some c =>
      by_cases hc : c = "" <;> by_cases hm : c = item.lastTouchedAt <;> simp [hc, hm]

/-- C5, witness: an item with an empty stored marker is fresh and skips the
fetch even when the remote marker differs. -/
theorem c5_witness :
    ({ data := design0, lastTouchedAt := "" } : CacheItem).lastTouchedAt = ""
    ∧ validateCacheItem { data := design0, lastTouchedAt := "" }
        (FetchOutcome.success (Option.some "zzz")) = true
    ∧ validationInvokesFetch { data := design0, lastTouchedAt := "" } = false := by
  have h := (c5_freshness_validation { data := design0, lastTouchedAt := "" }
    (FetchOutcome.success (Option.some "zzz"))).1 rfl
  exact ⟨rfl, h.1, h.2⟩

/-! ## Claim C8 -/

theorem findNodeInTreeR_toRaw : ∀ (f : Forest) (t : String),
    findNodeInTreeR (toRawForest f) t = .ok (Option.map toRaw (findNodeInTree f t))
  | .nil, _ => rfl
  | .cons (SNode.mk i nm ty ch) rest, t => by
    cases ch with
    | none =>
      by_cases hit : i = t
      · simp [toRawForest, toRaw, toRawChildren, findNodeInTreeR, findNodeInTree, hit]
      · simpa [toRawForest, toRaw, toRawChildren, findNodeInTreeR, findNodeInTree, hit]
          using findNodeInTreeR_toRaw rest t
    | some cs =>
      by_cases hit : i = t
      · simp [toRawForest, toRaw, toRawChildren, findNodeInTreeR, findNodeInTree, hit]
      · have hcs := findNodeInTreeR_toRaw cs t
        cases hfind : findNodeInTree cs t with
        | some found =>
          rw [hfind] at hcs
          simp [toRawForest, toRaw, toRawChildren, findNodeInTreeR, findNodeInTree, hit, hcs, hfind]
        | none =>
          rw [hfind] at hcs
          simp [toRawForest, toRaw, toRawChildren, findNodeInTreeR, findNodeInTree, hit, hcs, hfind,
            findNodeInTreeR_toRaw rest t]

/-- C8, counterexample: a children list containing a null slot makes the
search raise a `TypeError` (reading `.id` off the null slot) instead of
skipping the slot: the claim's "completes without raising an error" fails. -/
theorem c8_counterexample :
    findNodeInTreeR
      (RForest.cons (RNode.mk "r" "Root" "FRAME" (RChildren.some (RForest.consNull RForest.nil)))
        RForest.nil) "x" = Except.error () := by
  rfl

/-- C8 (amended): the search tolerates an absent children *field* (it simply
does not recurse), and on forests free of null slots it completes without
error, returning exactly what `findNodeInTree` returns; but a null/undefined
slot inside a children list is not skipped: as soon as the traversal reaches
such a slot the search raises a `TypeError`. -/
theorem c8_null_slot_behavior (f : Forest) (t : String) (rest : RForest) :
    findNodeInTreeR (RForest.consNull rest) t = Except.error ()
    ∧ findNodeInTreeR (toRawForest f) t = .ok (Option.map toRaw (findNodeInTree f t)) :=
  ⟨rfl, findNodeInTreeR_toRaw f t⟩

/-! ## Claim C9 -/

/-- C9, counterexample: with a positive remaining depth budget, a node whose
children field is absent is returned as the very same object as the input
(`return node;`), so the result of `limit` is not a fresh, independently
owned copy — mutating that returned node mutates the stored snapshot. -/
theorem c9_counterexample :
    limitNodeDepthA (SNode.mk "leaf" "Leaf" "TEXT" Children.none) 1
      = ATree.shared (SNode.mk "leaf" "Leaf" "TEXT" Children.none)
    ∧ freshCopy (limitNodeDepthA (SNode.mk "leaf" "Leaf" "TEXT" Children.none) 1) = false := by
  exact ⟨rfl, rfl⟩

/-- C9 (amended): `limit` is a pure function (it never mutates its input) and
its result is value-equal to the depth-limited copy; but the result is the
input object itself — shared with the stored snapshot rather than freshly
allocated — exactly when the depth budget is positive and the node's children
are absent or empty.  Hence depth-truncated results alias the snapshot at
every such node and are not always independently owned. -/
theorem c9_limit_aliasing (n : SNode) (d : Int) :
    eraseA (limitNodeDepthA n d) = limitNodeDepth n d
    ∧ (limitNodeDepthA n d = ATree.shared n ↔
        (0 < d ∧ (n.children = Children.none ∨ n.children = Children.some Forest.nil))) := by
  refine ⟨eraseA_limitNodeDepthA n d, ?_⟩
  obtain ⟨i, nm, ty, ch⟩ := n
  cases ch with
  | none =>
    by_cases hd : d ≤ 0 <;> simp [limitNodeDepthA, hd, SNode.children] <;> omega
  | some f =>
    cases f with
    | nil =>
      by_cases hd : d ≤ 0 <;> simp [limitNodeDepthA, hd, SNode.children] <;> omega
    | cons c cs =>
      by_cases hd : d ≤ 0 <;> simp [limitNodeDepthA, hd, SNode.children]

theorem findSome?_append_of_forall_none {α β : Type} (f : α → Option β) :
    ∀ (pre rest : List α), (∀ x ∈ pre, f x = Option.none) →
      (pre ++ rest).findSome? f = rest.findSome? f
  | [], _, _ => by simp
  | a :: pre, rest, h => by
    have ha : f a = Option.none := h a (List.mem_cons_self a pre)
    simp only [List.cons_append, List.findSome?_cons, ha]
    exact findSome?_append_of_forall_none f pre rest (fun x hx => h x (List.mem_cons_of_mem a hx))

/-- A concrete node, design and item used in witnesses. -/
def nodeN : SNode := SNode.mk "n" "N" "TEXT" Children.none

def designN : SimplifiedDesign := { design0 with nodes := Forest.cons nodeN Forest.nil }

def itemN : CacheItem := { data := designN, lastTouchedAt := "" }

theorem findNodeData_no_validation (c : LRUCache CacheItem) (fileKey nodeId : String)
    (rd : Option Int) :
    findNodeData c fileKey nodeId Option.none rd
      = ((findNodeInCache c fileKey nodeId rd).map Prod.fst, c, false) := by
  unfold findNodeData
  cases h : findNodeInCache c fileKey nodeId rd with
  | none => simp
  | some p =>
    cases p
    simp

/-! ## Claim C1 -/

/-- C1: for an unbounded query (`requiredDepth` absent) against an entry whose
key carries a finite depthTag, the entry is eligible (contributes a result to
the scan) exactly when the target node is found in its snapshot and
`rootDepth(node) + subtreeDepth(node) < depthTag`; entries where the node is
absent or the inequality fails are skipped; and if no entry of the scan is
eligible, `findNodeData` returns the not-found result (with no state change
and no metadata fetch). -/
theorem c1_unbounded_depth_eligibility (c : LRUCache CacheItem)
    (fileKey nodeId cacheKey : String) (item : CacheItem) (tag : Int)
    (v : Option FetchOutcome)
    (hpre : strStartsWith cacheKey (fileKey ++ ":") = true)
    (htag : getCacheKeyDepthLimit cacheKey = Option.some tag) :
    ((findNodeInCacheEntry fileKey nodeId Option.none cacheKey item).isSome = true ↔
      (∃ node, findNodeInTree item.data.nodes nodeId = Option.some node ∧
        getNodeDepthFromRoot item.data.nodes nodeId 0 + (getNodeDepth node : Int) < tag))
    ∧ (findNodeInCache c fileKey nodeId Option.none = Option.none →
      findNodeData c fileKey nodeId v Option.none = (Option.none, c, false)) := by
  constructor
  · simp only [findNodeInCacheEntry, hpre, htag, if_true]
    cases hf : findNodeInTree item.data.nodes nodeId with
    | none => simp [hf]
    | some node =>
      by_cases hlt : getNodeDepthFromRoot item.data.nodes nodeId 0 + (getNodeDepth node : Int) < tag
      · simp [hf, hlt, checkNodeDepthSatisfiesRequirement]
      · simp [hf, hlt]
  · intro h
    unfold findNodeData
    rw [h]

/-- C1, witness: with the tagged key `"f:n:1"` and a snapshot consisting of a
single childless root `"n"`, the entry is eligible (`0 + 0 < 1`). -/
theorem c1_witness :
    strStartsWith "f:n:1" ("f" ++ ":") = true
    ∧ getCacheKeyDepthLimit "f:n:1" = Option.some 1
    ∧ (findNodeInCacheEntry "f" "n" Option.none "f:n:1" itemN).isSome = true :=
  ⟨by decide, by decide,
    ((c1_unbounded_depth_eligibility (lruInit CacheItem 10) "f" "n" "f:n:1" itemN 1
      Option.none (by decide) (by decide)).1).mpr ⟨nodeN, by decide, by decide⟩⟩

/-! ## Claim C2 -/

/-- C2: for a bounded query (`requiredDepth` a finite number `d`), an entry is
eligible exactly when the target node is found in its snapshot and either the
maximum realized depth over all the snapshot's roots is `≥ d` or the target
node's own stored subtree depth is `≥ d`; when `d ≥ 0` the produced node is
the depth-limited copy `limit(node, d)`; and the scan takes the first
eligible entry. -/
theorem c2_bounded_depth_eligibility (c : LRUCache CacheItem)
    (fileKey nodeId cacheKey : String) (item : CacheItem) (d : Int)
    (hpre : strStartsWith cacheKey (fileKey ++ ":") = true) :
    ((findNodeInCacheEntry fileKey nodeId (Option.some d) cacheKey item).isSome = true ↔
      (∃ node, findNodeInTree item.data.nodes nodeId = Option.some node ∧
        ((forestMaxDepth item.data.nodes : Int) ≥ d ∨ (getNodeDepth node : Int) ≥ d)))
    ∧ (∀ node r, 0 ≤ d →
        findNodeInTree item.data.nodes nodeId = Option.some node →
        findNodeInCacheEntry fileKey nodeId (Option.some d) cacheKey item = Option.some r →
        r = (limitNodeDepth node d, item))
    ∧ (∀ pre post r,
        c.entries = pre ++ (cacheKey, item) :: post →
        (∀ kv ∈ pre, findNodeInCacheEntry fileKey nodeId (Option.some d) kv.1 kv.2 = Option.none) →
        findNodeInCacheEntry fileKey nodeId (Option.some d) cacheKey item = Option.some r →
        findNodeInCache c fileKey nodeId (Option.some d) = Option.some r)
    ∧ findNodeData c fileKey nodeId Option.none (Option.some d)
        = ((findNodeInCache c fileKey nodeId (Option.some d)).map Prod.fst, c, false) := by
  refine ⟨?_, ?_, ?_, findNodeData_no_validation c fileKey nodeId (Option.some d)⟩
  · simp only [findNodeInCacheEntry, hpre, if_true, checkNodeDepthSatisfiesRequirement]
    cases hf : findNodeInTree item.data.nodes nodeId with
    | none => simp [hf]
    | some node =>
      by_cases hov : (forestMaxDepth item.data.nodes : Int) ≥ d
      · simp [hf, hov]
      · by_cases htg : (getNodeDepth node : Int) ≥ d
        · simp [hf, hov, htg]
        · simp [hf, hov, htg]
  · intro node r h0 hf hr
    simp only [findNodeInCacheEntry, hpre, if_true, checkNodeDepthSatisfiesRequirement, hf] at hr
    by_cases hov : (forestMaxDepth item.data.nodes : Int) ≥ d
    · simp [hov, ge_iff_le, h0] at hr
      exact hr.symm
    · by_cases htg : (getNodeDepth node : Int) ≥ d
      · simp [hov, htg, ge_iff_le, h0] at hr
        exact hr.symm
      · simp [hov, htg] at hr
  · intro pre post r he hnone hr
    unfold findNodeInCache
    rw [he, findSome?_append_of_forall_none _ pre _ (fun kv hkv => hnone kv hkv)]
    simp [List.findSome?_cons, hr]

/-- C2, witness: a concrete eligible entry under an untagged key, at
`requiredDepth = 0`. -/
theorem c2_witness :
    strStartsWith "f:n:default" ("f" ++ ":") = true
    ∧ (findNodeInCacheEntry "f" "n" (Option.some 0) "f:n:default" itemN).isSome = true :=
  ⟨by decide,
    ((c2_bounded_depth_eligibility (lruInit CacheItem 10) "f" "n" "f:n:default" itemN 0
      (by decide)).1).mpr ⟨nodeN, by decide, Or.inl (by decide)⟩⟩

theorem lruDelete_entries {V : Type} (s : LRUCache V) (k : String) :
    ((lruDelete s k).2).entries = s.entries.filter (fun kv => kv.1 != k) := by
  unfold lruDelete
  cases hf : s.entries.find? (fun kv => kv.1 == k) with
  | some kv => simp
  | none =>
    have hall : ∀ kv ∈ s.entries, (kv.1 != k) = true := by
      intro kv hkv
      have := List.find?_eq_none.mp hf kv hkv
      simpa using this
    simpa using (List.filter_eq_self.mpr hall).symm

theorem foldl_lruDelete_entries {V : Type} : ∀ (ks : List String) (s : LRUCache V),
    ((ks.foldl (fun s k => (lruDelete s k).2) s).entries)
      = s.entries.filter (fun kv => !(ks.contains kv.1))
  | [], s => by simp
  | k :: ks, s => by
    simp only [List.foldl_cons]
    rw [foldl_lruDelete_entries ks ((lruDelete s k).2), lruDelete_entries, List.filter_filter]
    apply List.filter_congr
    intro kv _
    by_cases hk : kv.1 = k <;> by_cases hmem : kv.1 ∈ ks <;>
      simp [List.contains_cons, Bool.not_or, hk, hmem]

theorem clearFileCache_entries (c : LRUCache CacheItem) (fileKey : String) :
    (clearFileCache c fileKey).entries
      = c.entries.filter (fun kv => !(strStartsWith kv.1 (fileKey ++ ":"))) := by
  unfold clearFileCache
  rw [foldl_lruDelete_entries]
  apply List.filter_congr
  intro kv hkv
  congr 1
  by_cases hsw : strStartsWith kv.1 (fileKey ++ ":") = true
  · rw [hsw]
    have hmem : kv.1 ∈
        (c.entries.filter (fun kv => strStartsWith kv.1 (fileKey ++ ":"))).map Prod.fst :=
      List.mem_map.mpr ⟨kv, List.mem_filter.mpr ⟨hkv, hsw⟩, rfl⟩
    exact List.elem_iff.mpr hmem
  · have hb : strStartsWith kv.1 (fileKey ++ ":") = false := by
      simpa using hsw
    rw [hb]
    by_contra hc
    have hct : ((c.entries.filter (fun kv => strStartsWith kv.1 (fileKey ++ ":"))).map
        Prod.fst).contains kv.1 = true := by
      cases hcv : ((c.entries.filter (fun kv => strStartsWith kv.1 (fileKey ++ ":"))).map
          Prod.fst).contains kv.1
      · exact absurd hcv hc
      · rfl
    obtain ⟨kv', hkv', he⟩ := List.mem_map.mp (List.elem_iff.mp hct)
    have h2 := (List.mem_filter.mp hkv').2
    rw [he, hb] at h2
    cases h2

/-! ## Claim C6 -/

/-- C6: when `findNodeData` finds an eligible entry but the supplied
validation judges it stale, the operation clears every cache entry whose key
starts with `fileKey + ":"` (and only those), and returns the not-found
result (the `true` records that the metadata fetch was invoked). -/
theorem c6_stale_clears_whole_file (c : LRUCache CacheItem) (fileKey nodeId : String)
    (fetch : FetchOutcome) (rd : Option Int) (node : SNode) (item : CacheItem)
    (hfind : findNodeInCache c fileKey nodeId rd = Option.some (node, item))
    (hstale : validateCacheItem item fetch = false) :
    findNodeData c fileKey nodeId (Option.some fetch) rd
      = (Option.none, clearFileCache c fileKey, true)
    ∧ (clearFileCache c fileKey).entries
      = c.entries.filter (fun kv => !(strStartsWith kv.1 (fileKey ++ ":"))) := by
  constructor
  · have hm : item.lastTouchedAt ≠ "" := by
      intro h
      simp [validateCacheItem, h] at hstale
    unfold findNodeData
    rw [hfind]
    simp [hstale, validationInvokesFetch, hm]
  · exact clearFileCache_entries c fileKey

/-- A stale cached item for the C6 witness. -/
def itemT1 : CacheItem := { data := designN, lastTouchedAt := "t1" }

/-- A two-file cache for the C6 witness. -/
def cacheW : LRUCache CacheItem :=
  cachePut (cachePut (lruInit CacheItem 10) "f:n:default" designN "t1") "g:x:default" design0 ""

/-- C6, witness: a concrete stale hit clears the queried file's entries and
leaves the other file's entry in place. -/
theorem c6_witness :
    findNodeInCache cacheW "f" "n" Option.none = Option.some (nodeN, itemT1)
    ∧ validateCacheItem itemT1 (FetchOutcome.success (Option.some "t2")) = false
    ∧ findNodeData cacheW "f" "n" (Option.some (FetchOutcome.success (Option.some "t2")))
        Option.none = (Option.none, clearFileCache cacheW "f", true)
    ∧ (clearFileCache cacheW "f").entries = [("g:x:default", { data := design0, lastTouchedAt := "" })] :=
  ⟨by decide, by decide,
    (c6_stale_clears_whole_file cacheW "f" "n" (FetchOutcome.success (Option.some "t2"))
      Option.none nodeN itemT1 (by decide) (by decide)).1,
    by decide⟩

theorem findNodeInCacheEntry_some_found (fileKey nodeId : String) (rd : Option Int)
    (k : String) (it : CacheItem) (r : SNode × CacheItem)
    (h : findNodeInCacheEntry fileKey nodeId rd k it = Option.some r) :
    strStartsWith k (fileKey ++ ":") = true
    ∧ (findNodeInTree it.data.nodes nodeId).isSome = true := by
  by_cases hpre : strStartsWith k (fileKey ++ ":") = true
  · refine ⟨hpre, ?_⟩
    cases hf : findNodeInTree it.data.nodes nodeId with
    | some node => rfl
    | none =>
      exfalso
      cases rd with
      | none =>
        cases htag : getCacheKeyDepthLimit k with
        | none =>
          simp [findNodeInCacheEntry, hpre, htag, checkNodeDepthSatisfiesRequirement, hf] at h
        | some tag => simp [findNodeInCacheEntry, hpre, htag, hf] at h
      | some d => simp [findNodeInCacheEntry, hpre, checkNodeDepthSatisfiesRequirement, hf] at h
  · simp [findNodeInCacheEntry, hpre] at h

theorem scanSourceDesign_foldl_isSome (fileKey nodeId : String) :
    ∀ (l : List (String × CacheItem)) (init : Option SimplifiedDesign),
    init.isSome = true →
    (l.foldl (fun acc kv =>
      if strStartsWith kv.1 (fileKey ++ ":") ∧ (findNodeInTree kv.2.data.nodes nodeId).isSome
      then Option.some kv.2.data else acc) init).isSome = true
  | [], _, hinit => hinit
  | kv :: l, init, hinit => by
    simp only [List.foldl_cons]
    by_cases hc : strStartsWith kv.1 (fileKey ++ ":") ∧ (findNodeInTree kv.2.data.nodes nodeId).isSome
    · exact scanSourceDesign_foldl_isSome fileKey nodeId l _ (by simp [hc])
    · exact scanSourceDesign_foldl_isSome fileKey nodeId l _ (by simp [hc, hinit])

theorem scanSourceDesign_isSome_of_mem (c : LRUCache CacheItem) (fileKey nodeId : String)
    (kv : String × CacheItem) (hmem : kv ∈ c.entries)
    (hpre : strStartsWith kv.1 (fileKey ++ ":") = true)
    (hfound : (findNodeInTree kv.2.data.nodes nodeId).isSome = true) :
    (scanSourceDesign c fileKey nodeId Option.none).isSome = true := by
  unfold scanSourceDesign
  obtain ⟨pre, post, hsplit⟩ := List.append_of_mem hmem
  rw [hsplit, List.foldl_append, List.foldl_cons]
  exact scanSourceDesign_foldl_isSome fileKey nodeId post _ (by simp [hpre, hfound])

theorem findNodeInCache_scan_isSome (c : LRUCache CacheItem) (fileKey nodeId : String)
    (rd : Option Int) (p : SNode × CacheItem)
    (h : findNodeInCache c fileKey nodeId rd = Option.some p) :
    (scanSourceDesign c fileKey nodeId Option.none).isSome = true := by
  unfold findNodeInCache at h
  obtain ⟨kv, hkvmem, hkventry⟩ := List.exists_of_findSome?_eq_some h
  obtain ⟨hpre, hfound⟩ :=
    findNodeInCacheEntry_some_found fileKey nodeId rd kv.1 kv.2 p hkventry
  exact scanSourceDesign_isSome_of_mem c fileKey nodeId kv hkvmem hpre hfound

theorem findNodeData_hit_state (c : LRUCache CacheItem) (fileKey nodeId : String)
    (v : Option FetchOutcome) (rd : Option Int) (node : SNode)
    (h : (findNodeData c fileKey nodeId v rd).1 = Option.some node) :
    (findNodeData c fileKey nodeId v rd).2.1 = c
    ∧ ∃ item, findNodeInCache c fileKey nodeId rd = Option.some (node, item) := by
  unfold findNodeData at h ⊢
  cases hq : findNodeInCache c fileKey nodeId rd with
  | none => rw [hq] at h; simp at h
  | some p =>
    obtain ⟨node1, item⟩ := p
    rw [hq] at h
    cases v with
    | none =>
      have hnode : node1 = node := by simpa using h
      subst hnode
      exact ⟨rfl, item, rfl⟩
    | some fetch =>
      by_cases hval : validateCacheItem item fetch = true
      · have hnode : node1 = node := by simpa [hval] using h
        subst hnode
        refine ⟨?_, item, rfl⟩
        simp [hval]
      · exfalso
        simpa [hval] using h
  -- a stale validated hit returns none, so a hit leaves the state unchanged

theorem findNodeData_miss_state (c : LRUCache CacheItem) (fileKey nodeId : String)
    (v : Option FetchOutcome) (rd : Option Int)
    (h : (findNodeData c fileKey nodeId v rd).1 = Option.none) :
    (findNodeData c fileKey nodeId v rd).2.1 = c
    ∨ (findNodeData c fileKey nodeId v rd).2.1 = clearFileCache c fileKey := by
  unfold findNodeData at h ⊢
  cases hq : findNodeInCache c fileKey nodeId rd with
  | none => left; rfl
  | some p =>
    obtain ⟨node1, item⟩ := p
    rw [hq] at h
    cases v with
    | none => simp at h
    | some fetch =>
      by_cases hval : validateCacheItem item fetch = true
      · simp [hval] at h
      · right
        simp [hval]

theorem findNodeInCache_no_file_keys (s : LRUCache CacheItem) (fileKey nodeId : String)
    (rd : Option Int)
    (h : ∀ kv ∈ s.entries, strStartsWith kv.1 (fileKey ++ ":") = false) :
    findNodeInCache s fileKey nodeId rd = Option.none := by
  unfold findNodeInCache
  rw [List.findSome?_eq_none_iff]
  intro kv hkv
  unfold findNodeInCacheEntry
  simp [h kv hkv]

theorem clearFileCache_no_file_keys (c : LRUCache CacheItem) (fileKey : String) :
    ∀ kv ∈ (clearFileCache c fileKey).entries,
      strStartsWith kv.1 (fileKey ++ ":") = false := by
  intro kv hkv
  rw [clearFileCache_entries] at hkv
  simpa using (List.mem_filter.mp hkv).2

/-- Once the queried file's entries are gone, every remaining lookup for that
file misses and the loop changes nothing. -/
theorem fmnGo_no_file_keys (fileKey : String) (v : Option FetchOutcome) (rd : Option Int) :
    ∀ (ids : List String) (s : LRUCache CacheItem) (src : Option SimplifiedDesign),
    (∀ kv ∈ s.entries, strStartsWith kv.1 (fileKey ++ ":") = false) →
    findMultipleNodesGo fileKey v rd s ids src = ([], ids, src, s)
  | [], _, _, _ => rfl
  | nid :: rest, s, src, h => by
    have hmiss : findNodeData s fileKey nid v rd = (Option.none, s, false) := by
      unfold findNodeData
      rw [findNodeInCache_no_file_keys s fileKey nid rd h]
    unfold findMultipleNodesGo
    rw [hmiss]
    simp only
    rw [fmnGo_no_file_keys fileKey v rd rest s src h]

/-- A source design, once recorded, is returned unchanged by the rest of the
loop. -/
theorem fmnGo_src_some (fileKey : String) (v : Option FetchOutcome) (rd : Option Int) :
    ∀ (ids : List String) (s : LRUCache CacheItem) (src : Option SimplifiedDesign),
    src.isSome = true →
    (findMultipleNodesGo fileKey v rd s ids src).2.2.1 = src
  | [], _, _, _ => rfl
  | nid :: rest, s, src, h => by
    unfold findMultipleNodesGo
    cases hh : (findNodeData s fileKey nid v rd).1 with
    | some node =>
      simp only [hh, h, if_true]
      exact fmnGo_src_some fileKey v rd rest _ src h
    | none =>
      simp only [hh]
      exact fmnGo_src_some fileKey v rd rest _ src h

/-- With no hit at all, no source design is ever recorded. -/
theorem fmnGo_no_hit (fileKey : String) (v : Option FetchOutcome) (rd : Option Int) :
    ∀ (ids : List String) (s : LRUCache CacheItem) (src : Option SimplifiedDesign),
    (findMultipleNodesGo fileKey v rd s ids src).1 = [] →
    (findMultipleNodesGo fileKey v rd s ids src).2.2.1 = src
  | [], _, _, _ => rfl
  | nid :: rest, s, src, h => by
    unfold findMultipleNodesGo at h ⊢
    cases hh : (findNodeData s fileKey nid v rd).1 with
    | some node =>
      simp only [hh] at h
      simp at h
    | none =>
      simp only [hh] at h ⊢
      exact fmnGo_no_hit fileKey v rd rest _ src h

/-- The key step for C7, for an arbitrary validation argument: if the loop
produces at least one hit, then every iteration before the first hit was a
plain scan miss (a stale validated hit would have cleared the file and
precluded any later hit), so the first hit is the first id that
`findNodeData` answers from the *initial* state, the rescan runs over the
initial state, and the recorded source design is kept to the end. -/
theorem fmnGo_first_hit (fileKey : String) (v : Option FetchOutcome) (rd : Option Int) :
    ∀ (ids : List String) (c : LRUCache CacheItem),
    (findMultipleNodesGo fileKey v rd c ids Option.none).1 ≠ [] →
    ∃ nid, ids.find? (fun nid => (findNodeData c fileKey nid v rd).1.isSome) = Option.some nid
      ∧ (findMultipleNodesGo fileKey v rd c ids Option.none).2.2.1
          = scanSourceDesign c fileKey nid Option.none
      ∧ (scanSourceDesign c fileKey nid Option.none).isSome = true
  | [], _, h => absurd rfl h
  | nid :: rest, c, h => by
    cases hh : (findNodeData c fileKey nid v rd).1 with
    | some node =>
      obtain ⟨hstate, item, hcache⟩ := findNodeData_hit_state c fileKey nid v rd node hh
      have hscan : (scanSourceDesign c fileKey nid Option.none).isSome = true :=
        findNodeInCache_scan_isSome c fileKey nid rd (node, item) hcache
      refine ⟨nid, by simp [List.find?_cons, hh], ?_, hscan⟩
      conv_lhs => rw [findMultipleNodesGo]
      simp only [hh, Option.isSome_none, Bool.false_eq_true, if_false, hstate]
      exact fmnGo_src_some fileKey v rd rest c _ hscan
    | none =>
      have hh2 : (findMultipleNodesGo fileKey v rd c (nid :: rest) Option.none).1
          = (findMultipleNodesGo fileKey v rd (findNodeData c fileKey nid v rd).2.1 rest
              Option.none).1 := by
        conv_lhs => rw [findMultipleNodesGo]
        simp only [hh]
      cases findNodeData_miss_state c fileKey nid v rd hh with
      | inl hc =>
        rw [hc] at hh2
        have hne : (findMultipleNodesGo fileKey v rd c rest Option.none).1 ≠ [] := by
          rw [← hh2]
          exact h
        obtain ⟨nid1, hfind, hsrc, hsome⟩ := fmnGo_first_hit fileKey v rd rest c hne
        refine ⟨nid1, by simp [List.find?_cons, hh, hfind], ?_, hsome⟩
        conv_lhs => rw [findMultipleNodesGo]
        simp only [hh, hc]
        exact hsrc
      | inr hclear =>
        exfalso
        rw [hclear, fmnGo_no_file_keys fileKey v rd rest (clearFileCache c fileKey) Option.none
          (clearFileCache_no_file_keys c fileKey)] at hh2
        exact h hh2

/-! ## Claim C7 -/

/-- Concrete data for the C7 counterexample: two entries of the same file
whose snapshots both contain a node with id `"n"`. -/
def cexNodeA : SNode := SNode.mk "n" "A" "TEXT" Children.none

def cexNodeB : SNode := SNode.mk "n" "B" "TEXT" Children.none

def cexDesignA : SimplifiedDesign :=
  { design0 with name := "DA", nodes := Forest.cons cexNodeA Forest.nil }

def cexDesignB : SimplifiedDesign :=
  { design0 with name := "DB", nodes := Forest.cons cexNodeB Forest.nil }

def cexItemA : CacheItem := { data := cexDesignA, lastTouchedAt := "" }

def cexCache : LRUCache CacheItem :=
  cachePut (cachePut (lruInit CacheItem 10) "f:a:default" cexDesignA "")
    "f:b:default" cexDesignB ""

/-- C7, counterexample: `findNodeData` produces the hit from the first entry
(whose node is named `"A"`, i.e. the backing entry is the one holding
`cexDesignA`), but the returned source design is the one of the *last*
matching entry (`cexDesignB`), not the snapshot of the entry that produced
the first hit. -/
theorem c7_counterexample :
    findNodeInCache cexCache "f" "n" Option.none = Option.some (cexNodeA, cexItemA)
    ∧ (findMultipleNodes cexCache "f" ["n"] Option.none Option.none).1 = [cexNodeA]
    ∧ (findMultipleNodes cexCache "f" ["n"] Option.none Option.none).2.2.1
        = Option.some cexDesignB
    ∧ cexDesignB ≠ cexDesignA := by
  refine ⟨by decide, by decide, by decide, by decide⟩

/-- C7 (amended), for every call, with or without a validation callback and
for every required depth: empty `nodeIds` yields empty hit and miss lists
with no source snapshot and an unchanged cache; a call with no hits returns
no source snapshot; and a call with at least one hit takes its first hit at
the first id that `findNodeData` answers from the initial cache state, and
returns as source snapshot the snapshot of the *last* entry in scan order
whose key matches the file prefix and whose snapshot contains that first
hit's id — which need not be the entry `findNodeData` selected — and such a
snapshot is always present. -/
theorem c7_source_design (c : LRUCache CacheItem) (fileKey : String)
    (nodeIds : List String) (v : Option FetchOutcome) (rd : Option Int) :
    findMultipleNodes c fileKey [] v rd = ([], [], Option.none, c)
    ∧ ((findMultipleNodes c fileKey nodeIds v rd).1 = [] →
        (findMultipleNodes c fileKey nodeIds v rd).2.2.1 = Option.none)
    ∧ ((findMultipleNodes c fileKey nodeIds v rd).1 ≠ [] →
        ∃ nid, nodeIds.find? (fun nid => (findNodeData c fileKey nid v rd).1.isSome)
            = Option.some nid
          ∧ (findMultipleNodes c fileKey nodeIds v rd).2.2.1
              = scanSourceDesign c fileKey nid Option.none
          ∧ (scanSourceDesign c fileKey nid Option.none).isSome = true) := by
  refine ⟨rfl, ?_, ?_⟩
  · exact fmnGo_no_hit fileKey v rd nodeIds c Option.none
  · exact fmnGo_first_hit fileKey v rd nodeIds c

/-- C7, witness: a concrete call with a validation callback supplied (its
fetch failing, so the cached entries are kept) produces a hit, and the
theorem locates its source snapshot. -/
theorem c7_witness :
    (findMultipleNodes cexCache "f" ["n"] (Option.some FetchOutcome.failure) Option.none).1 ≠ []
    ∧ ∃ nid, (["n"].find? (fun nid =>
          (findNodeData cexCache "f" nid (Option.some FetchOutcome.failure) Option.none).1.isSome))
        = Option.some nid
      ∧ (findMultipleNodes cexCache "f" ["n"] (Option.some FetchOutcome.failure) Option.none).2.2.1
          = scanSourceDesign cexCache "f" nid Option.none
      ∧ (scanSourceDesign cexCache "f" nid Option.none).isSome = true :=
  ⟨by decide,
    (c7_source_design cexCache "f" ["n"] (Option.some FetchOutcome.failure) Option.none).2.2
      (by decide)⟩

/-! ## LRU invariants (for claim C4) -/

/-- Well-formedness of the store: the map's keys are distinct, and the
recency list holds exactly the map's keys. -/
def lruWF {V : Type} (s : LRUCache V) : Prop :=
  (s.entries.map Prod.fst).Nodup ∧ s.recency.Perm (s.entries.map Prod.fst)

/-- The reachable-state invariant: well-formed and within capacity. -/
def lruInv {V : Type} (s : LRUCache V) : Prop :=
  lruWF s ∧ s.entries.length ≤ s.capacity

theorem lruHas_iff_mem {V : Type} (s : LRUCache V) (k : String) :
    lruHas s k = true ↔ k ∈ s.entries.map Prod.fst := by
  simp only [lruHas, List.any_eq_true, List.mem_map]
  constructor
  · rintro ⟨kv, hkv, hbeq⟩
    exact ⟨kv, hkv, by simpa using hbeq.symm⟩
  · rintro ⟨kv, hkv, hfst⟩
    exact ⟨kv, hkv, by simp [hfst]⟩

theorem map_fst_filter_ne {V : Type} (l : List (String × V)) (x : String) :
    (l.filter (fun kv => kv.1 != x)).map Prod.fst
      = (l.map Prod.fst).filter (fun j => j != x) := by
  induction l with
  | nil => rfl
  | cons kv l ih =>
    by_cases h : (kv.1 != x) = true <;> simp [List.filter_cons, h, ih]

theorem map_fst_update {V : Type} (l : List (String × V)) (k : String) (v : V) :
    (l.map (fun kv => if kv.1 == k then (k, v) else kv)).map Prod.fst
      = l.map Prod.fst := by
  induction l with
  | nil => rfl
  | cons kv l ih =>
    simp only [List.map_cons, ih]
    by_cases h : (kv.1 == k) = true
    · have hk : kv.1 = k := by simpa using h
      simp [h, hk]
    · simp [h]

theorem lruGet_capacity {V : Type} (s : LRUCache V) (k : String) :
    ((lruGet s k).2).capacity = s.capacity := by
  unfold lruGet
  cases s.entries.find? (fun kv => kv.1 == k) <;> rfl

theorem lruPut_capacity {V : Type} (s : LRUCache V) (k : String) (v : V) :
    (lruPut s k v).capacity = s.capacity := by
  unfold lruPut
  by_cases h : s.entries.any (fun kv => kv.1 == k)
  · simp [h]
  · simp only [h, if_false, Bool.false_eq_true]
    by_cases hc : s.capacity ≤ s.entries.length
    · simp only [hc, if_true]
      cases s.recency.getLast? <;> rfl
    · simp [hc]

theorem lruDelete_capacity {V : Type} (s : LRUCache V) (k : String) :
    ((lruDelete s k).2).capacity = s.capacity := by
  unfold lruDelete
  cases s.entries.find? (fun kv => kv.1 == k) <;> rfl

theorem applyOp_capacity {V : Type} (s : LRUCache V) (op : LRUOp V) :
    (applyOp s op).capacity = s.capacity := by
  cases op with
  | get k => exact lruGet_capacity s k
  | put k v => exact lruPut_capacity s k v
  | del k => exact lruDelete_capacity s k
  | clear => rfl

theorem runOps_capacity {V : Type} : ∀ (ops : List (LRUOp V)) (s : LRUCache V),
    (runOps s ops).capacity = s.capacity
  | [], _ => rfl
  | op :: ops, s => by
    show (runOps (applyOp s op) ops).capacity = s.capacity
    rw [runOps_capacity ops (applyOp s op), applyOp_capacity]

theorem lruGet_inv {V : Type} (s : LRUCache V) (k : String) (h : lruInv s) :
    lruInv ((lruGet s k).2) := by
  obtain ⟨⟨hnd, hperm⟩, hlen⟩ := h
  unfold lruGet
  cases hf : s.entries.find? (fun kv => kv.1 == k) with
  | none => exact ⟨⟨hnd, hperm⟩, hlen⟩
  | some kv =>
    have hk : kv.1 = k := by simpa using List.find?_some hf
    have hmem : kv ∈ s.entries := List.mem_of_find?_eq_some hf
    have hkkeys : k ∈ s.entries.map Prod.fst := List.mem_map.mpr ⟨kv, hmem, hk⟩
    have hkrec : k ∈ s.recency := hperm.mem_iff.mpr hkkeys
    refine ⟨⟨hnd, ?_⟩, hlen⟩
    exact ((List.perm_cons_erase hkrec).symm).trans hperm

theorem lruDelete_inv {V : Type} (s : LRUCache V) (k : String) (h : lruInv s) :
    lruInv ((lruDelete s k).2) := by
  obtain ⟨⟨hnd, hperm⟩, hlen⟩ := h
  unfold lruDelete
  cases hf : s.entries.find? (fun kv => kv.1 == k) with
  | none => exact ⟨⟨hnd, hperm⟩, hlen⟩
  | some kv =>
    refine ⟨⟨?_, ?_⟩, ?_⟩
    · rw [map_fst_filter_ne]
      exact hnd.filter _
    · rw [map_fst_filter_ne]
      exact hperm.filter _
    · calc (s.entries.filter (fun kv => kv.1 != k)).length
          ≤ s.entries.length := List.length_filter_le _ _
        _ ≤ s.capacity := hlen

theorem lruClear_inv {V : Type} (s : LRUCache V) : lruInv (lruClear s) := by
  exact ⟨⟨List.nodup_nil, List.Perm.refl _⟩, by simp [lruClear]⟩

theorem lruPut_inv {V : Type} (s : LRUCache V) (k : String) (v : V)
    (hcap : 1 ≤ s.capacity) (h : lruInv s) : lruInv (lruPut s k v) := by
  obtain ⟨⟨hnd, hperm⟩, hlen⟩ := h
  unfold lruPut
  by_cases hany : s.entries.any (fun kv => kv.1 == k) = true
  · -- update in place: keys unchanged, recency refreshed
    have hkkeys : k ∈ s.entries.map Prod.fst := by
      have h2 : lruHas s k = true := by
        rw [lruHas]
        exact hany
      exact (lruHas_iff_mem s k).mp h2
    have hkrec : k ∈ s.recency := hperm.mem_iff.mpr hkkeys
    simp only [hany, if_true]
    refine ⟨⟨?_, ?_⟩, ?_⟩
    · rw [map_fst_update]
      exact hnd
    · rw [map_fst_update]
      exact ((List.perm_cons_erase hkrec).symm).trans hperm
    · simpa using hlen
  · have hknot : ¬ k ∈ s.entries.map Prod.fst := by
      intro hmem
      have h2 := (lruHas_iff_mem s k).mpr hmem
      rw [lruHas] at h2
      exact hany h2
    simp only [hany, if_false, Bool.false_eq_true]
    by_cases hc : s.capacity ≤ s.entries.length
    · -- eviction: the recency tail leaves, the new entry enters
      have hlenpos : 1 ≤ s.entries.length := le_trans hcap hc
      have hrecne : s.recency ≠ [] := by
        intro hnil
        have := hperm.length_eq
        rw [hnil] at this
        simp at this
        omega
      have hv : s.recency.getLast? = Option.some (s.recency.getLast hrecne) :=
        List.getLast?_eq_getLast _ hrecne
      set victim := s.recency.getLast hrecne with hvic
      have hsplit : s.recency.dropLast ++ [victim] = s.recency :=
        List.dropLast_append_getLast hrecne
      have hrecnd : s.recency.Nodup := hperm.nodup_iff.mpr hnd
      have hvnotdrop : ¬ victim ∈ s.recency.dropLast := by
        intro hmem
        have hnd2 := hrecnd
        rw [← hsplit, List.nodup_append] at hnd2
        exact hnd2.2.2 hmem (List.mem_singleton.mpr rfl)
      have h1 : s.recency.dropLast.filter (fun j => j != victim) = s.recency.dropLast :=
        List.filter_eq_self.mpr (fun j hj => by
          simp only [bne_iff_ne, ne_eq, decide_eq_true_eq]
          intro heq
          exact hvnotdrop (heq ▸ hj))
      have h2 : List.filter (fun j => j != victim) [victim] = [] := by simp
      have hfiltrec : s.recency.filter (fun j => j != victim) = s.recency.dropLast := by
        conv_lhs => rw [← hsplit]
        rw [List.filter_append, h1, h2, List.append_nil]
      have hpermfilt : s.recency.dropLast.Perm
          ((s.entries.filter (fun kv => kv.1 != victim)).map Prod.fst) := by
        rw [map_fst_filter_ne, ← hfiltrec]
        exact hperm.filter _
      have hlenfilt : ((s.entries.filter (fun kv => kv.1 != victim)).map Prod.fst).length
          = s.entries.length - 1 := by
        rw [← hpermfilt.length_eq]
        have hdl : s.recency.dropLast.length = s.recency.length - 1 := by
          rw [← hsplit]
          simp
        rw [hdl, hperm.length_eq, List.length_map]
      simp only [hc, if_true, hv]
      refine ⟨⟨?_, ?_⟩, ?_⟩
      · -- keys of (filter ++ [new]) are distinct
        rw [List.map_append, map_fst_filter_ne]
        simp only [List.map_cons, List.map_nil]
        rw [List.nodup_append]
        refine ⟨(hnd.filter _), List.nodup_singleton k, ?_⟩
        intro j hj
        have hjkeys : j ∈ s.entries.map Prod.fst := List.mem_of_mem_filter hj
        simp only [List.mem_singleton]
        intro hjk
        exact hknot (hjk ▸ hjkeys)
      · rw [List.map_append]
        simp only [List.map_cons, List.map_nil]
        refine List.Perm.trans ?_ (List.perm_append_singleton k _).symm
        exact (hpermfilt.cons k)
      · have hflen := hlenfilt
        rw [List.length_map] at hflen
        simp only [List.length_append, List.length_cons, List.length_nil, hflen]
        omega
    · -- below capacity: plain insert
      simp only [hc, if_false]
      refine ⟨⟨?_, ?_⟩, ?_⟩
      · rw [List.map_append]
        simp only [List.map_cons, List.map_nil]
        rw [List.nodup_append]
        exact ⟨hnd, List.nodup_singleton k, fun j hj => by
          simp only [List.mem_singleton]
          intro hjk
          exact hknot (hjk ▸ hj)⟩
      · rw [List.map_append]
        simp only [List.map_cons, List.map_nil]
        exact List.Perm.trans (hperm.cons k) (List.perm_append_singleton k _).symm
      · simp only [List.length_append, List.length_cons, List.length_nil]
        omega

theorem applyOp_inv {V : Type} (s : LRUCache V) (op : LRUOp V)
    (hcap : 1 ≤ s.capacity) (h : lruInv s) : lruInv (applyOp s op) := by
  cases op with
  | get k => exact lruGet_inv s k h
  | put k v => exact lruPut_inv s k v hcap h
  | del k => exact lruDelete_inv s k h
  | clear => exact lruClear_inv s

theorem runOps_inv {V : Type} : ∀ (ops : List (LRUOp V)) (s : LRUCache V),
    1 ≤ s.capacity → lruInv s → lruInv (runOps s ops)
  | [], _, _, h => h
  | op :: ops, s, hcap, h => by
    show lruInv (runOps (applyOp s op) ops)
    exact runOps_inv ops (applyOp s op)
      (by rw [applyOp_capacity]; exact hcap) (applyOp_inv s op hcap h)

theorem lruInit_inv {V : Type} (N : Nat) : lruInv (lruInit V N) :=
  ⟨⟨List.nodup_nil, List.Perm.refl _⟩, by simp [lruInit]⟩

theorem lruPut_evict_iff {V : Type} (s : LRUCache V) (k : String) (v : V)
    (hwf : lruWF s) (hnot : lruHas s k = false)
    (hfull : s.capacity ≤ s.entries.length) (hcap : 1 ≤ s.capacity) :
    ∀ j, (lruHas (lruPut s k v) j = true ↔
      (j = k ∨ (lruHas s j = true ∧ Option.some j ≠ s.recency.getLast?))) := by
  intro j
  obtain ⟨hnd, hperm⟩ := hwf
  have hany : s.entries.any (fun kv => kv.1 == k) = false := by
    rw [lruHas] at hnot
    exact hnot
  have hlenpos : 1 ≤ s.entries.length := le_trans hcap hfull
  have hrecne : s.recency ≠ [] := by
    intro hnil
    have := hperm.length_eq
    rw [hnil] at this
    simp at this
    omega
  have hv : s.recency.getLast? = Option.some (s.recency.getLast hrecne) :=
    List.getLast?_eq_getLast _ hrecne
  set victim := s.recency.getLast hrecne with hvic
  unfold lruPut
  simp only [hany, Bool.false_eq_true, if_false, hfull, if_true, hv]
  rw [lruHas_iff_mem]
  rw [List.map_append, map_fst_filter_ne]
  simp only [List.map_cons, List.map_nil, List.mem_append, List.mem_filter,
    List.mem_singleton, bne_iff_ne, ne_eq, decide_eq_true_eq, Option.some.injEq,
    lruHas_iff_mem]
  tauto

theorem lruGet_hit_head {V : Type} (s : LRUCache V) (k : String)
    (h : ((lruGet s k).1).isSome = true) :
    ((lruGet s k).2).recency.head? = Option.some k := by
  unfold lruGet at h ⊢
  cases hf : s.entries.find? (fun kv => kv.1 == k) with
  | none => rw [hf] at h; simp at h
  | some kv => simp

theorem lruPut_head {V : Type} (s : LRUCache V) (k : String) (v : V) :
    (lruPut s k v).recency.head? = Option.some k := by
  unfold lruPut
  by_cases hany : s.entries.any (fun kv => kv.1 == k) = true
  · simp [hany]
  · simp only [hany, Bool.false_eq_true, if_false]
    by_cases hc : s.capacity ≤ s.entries.length
    · simp only [hc, if_true]
      cases s.recency.getLast? <;> rfl
    · simp [hc]

/-! ## Claim C4 -/

/-- C4, counterexample: the claim quantifies over every capacity `N`, but a
store constructed with capacity 0 accepts an entry and then holds 1 > 0
entries. -/
theorem c4_counterexample :
    ¬ ((runOps (lruInit Unit 0) [LRUOp.put "a" ()]).entries.length ≤ 0) := by
  decide

/-- C4 (amended): for every capacity `N ≥ 1` and every sequence of
get/put/delete/clear operations from the empty store, the store never holds
more than `N` entries; when a put of a new key occurs while `N` entries are
present, the set of keys afterwards is exactly the old set minus the
least-recently-touched key (the recency tail) plus the new key; and both a
`get` hit and any `put` leave the touched key most recently used (at the head
of the recency order). -/
theorem c4_lru_eviction (V : Type) (N : Nat) (ops : List (LRUOp V)) (hN : 1 ≤ N) :
    (runOps (lruInit V N) ops).entries.length ≤ N
    ∧ (∀ k v, lruHas (runOps (lruInit V N) ops) k = false →
        (runOps (lruInit V N) ops).entries.length = N →
        ∀ j, (lruHas (lruPut (runOps (lruInit V N) ops) k v) j = true ↔
          (j = k ∨ (lruHas (runOps (lruInit V N) ops) j = true
            ∧ Option.some j ≠ (runOps (lruInit V N) ops).recency.getLast?))))
    ∧ (∀ k, ((lruGet (runOps (lruInit V N) ops) k).1).isSome = true →
        ((lruGet (runOps (lruInit V N) ops) k).2).recency.head? = Option.some k)
    ∧ (∀ k v, (lruPut (runOps (lruInit V N) ops) k v).recency.head? = Option.some k) := by
  have hcapinit : 1 ≤ (lruInit V N).capacity := hN
  have hinv := runOps_inv ops (lruInit V N) hcapinit (lruInit_inv N)
  have hcap : (runOps (lruInit V N) ops).capacity = N := runOps_capacity ops (lruInit V N)
  refine ⟨?_, ?_, ?_, ?_⟩
  · exact le_trans hinv.2 (le_of_eq hcap)
  · intro k v hnot hfull
    exact lruPut_evict_iff (runOps (lruInit V N) ops) k v hinv.1 hnot
      (by rw [hcap]; omega) (by rw [hcap]; exact hN)
  · intro k h
    exact lruGet_hit_head _ k h
  · intro k v
    exact lruPut_head _ k v

/-- C4, witness: at capacity 1 the bound holds after a put, and a further put
moves the new key to the recency head. -/
theorem c4_witness :
    1 ≤ 1
    ∧ (runOps (lruInit Unit 1) [LRUOp.put "a" ()]).entries.length ≤ 1
    ∧ (lruPut (runOps (lruInit Unit 1) [LRUOp.put "a" ()]) "b" ()).recency.head?
        = Option.some "b" :=
  ⟨by decide, (c4_lru_eviction Unit 1 [LRUOp.put "a" ()] (by decide)).1,
   (c4_lru_eviction Unit 1 [LRUOp.put "a" ()] (by decide)).2.2.2 "b" ()⟩

/-! ## Claim C10 -/

/-- C10: a miss is pure and local.  An exact-key `get` miss returns the
not-found result with the state unchanged and without invoking the metadata
fetch, and `findNodeData` with no eligible entry likewise returns not-found,
leaves the state unchanged and never invokes the fetch. -/
theorem c10_miss_is_pure (c : LRUCache CacheItem) (cacheKey fileKey nodeId : String)
    (v : Option FetchOutcome) (rd : Option Int) :
    ((lruGet c cacheKey).1 = Option.none →
      cacheGet c cacheKey v = (Option.none, c, false))
    ∧ (findNodeInCache c fileKey nodeId rd = Option.none →
      findNodeData c fileKey nodeId v rd = (Option.none, c, false)) := by
  constructor
  · intro h
    unfold cacheGet
    unfold lruGet at h ⊢
    cases hf : c.entries.find? (fun kv => kv.1 == cacheKey) with
    | none => simp
    | some kv => rw [hf] at h; simp at h
  · intro h
    unfold findNodeData
    rw [h]

/-- C10, witness: the empty cache misses both lookups. -/
theorem c10_witness :
    (lruGet (lruInit CacheItem 10) "k").1 = Option.none
    ∧ cacheGet (lruInit CacheItem 10) "k" (Option.some FetchOutcome.failure)
        = (Option.none, lruInit CacheItem 10, false)
    ∧ findNodeInCache (lruInit CacheItem 10) "f" "n" Option.none = Option.none
    ∧ findNodeData (lruInit CacheItem 10) "f" "n" (Option.some FetchOutcome.failure) Option.none
        = (Option.none, lruInit CacheItem 10, false) := by
  refine ⟨rfl, ?_, rfl, ?_⟩
  · exact (c10_miss_is_pure (lruInit CacheItem 10) "k" "f" "n"
      (Option.some FetchOutcome.failure) Option.none).1 rfl
  · exact (c10_miss_is_pure (lruInit CacheItem 10) "k" "f" "n"
      (Option.some FetchOutcome.failure) Option.none).2 rfl
